import Mathlib

/-!
# tasker: a shallow embedding of `main.go`

The program is a single-shot command-line to-do list.  One run loads the task
list from `tasks.json`, executes one command (`add`, `list`, `done`, `rm`) and,
for a mutating command, writes the whole list back.

Modelling choices.

* Go's `int` is taken to be 64 bits wide; the only arithmetic of the program,
  `max + 1` in `nextID`, wraps around as Go's signed addition does.
* `time.Time` is an instant; `time.Now()` is an input of a run.
* `strings.ToLower` and `strconv.Atoi` are library functions; the embedding takes
  them as parameters (`Lib`), so every theorem holds for whatever they compute.
  `goLib` is a concrete instance used to evaluate runs.
* `loadTasks` and `saveTasks` delegate to `os.ReadFile`, `os.WriteFile` and
  `encoding/json`.  A run receives the result of `loadTasks` as an input and
  records the list that it hands to `saveTasks`.  For sequences of runs the
  persisted file is modelled by the list it holds.
* Standard output is the list of the strings written by the successive
  `fmt.Println` / `fmt.Printf` calls.
-/

namespace Tasker

/-! ## Data model -/

/-- Model of `time.Time`: an instant, in nanoseconds counted from the zero value. -/
structure Time where
  nanos : Int
deriving DecidableEq, Repr

/-- The zero value of `time.Time` (what a field holds when it was never set). -/
def Time.zero : Time := ⟨0⟩

/-- The record `Task` of `main.go`. -/
structure Task where
  ID : Int
  Title : String
  Done : Bool
  CreatedAt : Time
  DoneAt : Time
deriving DecidableEq, Repr

/-! ## Machine integers -/

/-- Smallest value of Go's 64-bit `int`. -/
def minInt : Int := -(2 ^ 63)

/-- Largest value of Go's 64-bit `int`. -/
def maxInt : Int := 2 ^ 63 - 1

/-- Two's complement wrap-around of a mathematical integer into the 64-bit `int`. -/
def wrapInt (x : Int) : Int := (x + 2 ^ 63) % 2 ^ 64 - 2 ^ 63

/-! ## Task store -/

/-- The loop of `nextID`: the running maximum, started by the caller at `0`. -/
def maxLoop (max : Int) (tasks : List Task) : Int :=
  tasks.foldl (fun m t => if t.ID > m then t.ID else m) max

/-- `nextID` of `main.go`: `max := 0`, scan, `return max + 1` (wrapping). -/
def nextID (tasks : List Task) : Int :=
  wrapInt (maxLoop 0 tasks + 1)

/-! ## Library functions taken as parameters -/

/-- The two library functions the dispatcher calls on its arguments. -/
structure Lib where
  /-- Stands for `strings.ToLower`. -/
  ToLower : String → String
  /-- Stands for `strconv.Atoi`; `none` stands for a non-nil error. -/
  Atoi : String → Option Int

/-! ## Command dispatcher -/

/-- What one run of the program does, as far as the outside can see. -/
structure Outcome where
  /-- The strings written to standard output, one per print call. -/
  stdout : List String
  /-- The exit status of the process. -/
  exit : Nat
  /-- The list handed to `saveTasks`, when the run reaches that call. -/
  saved : Option (List Task)
deriving DecidableEq, Repr

/-- Decimal rendering of an `int`, as the verb `%d` and `Println` produce it. -/
def fmtInt (n : Int) : String := toString n

/-- The output of `usage()`. -/
def usage : List String :=
  [ "tasker: simple todo CLI\n",
    "\n",
    "Usage:\n",
    "  tasker add <title>\n",
    "  tasker list\n",
    "  tasker done <id>\n",
    "  tasker rm <id>\n" ]

/-- The line printed by the `list` command for one task. -/
def renderTask (t : Task) : String :=
  "[" ++ (if t.Done then "x" else " ") ++ "] #" ++ fmtInt t.ID ++ " " ++ t.Title ++ "\n"

/-- The loop of the `done` command: mark the first task with the given id, then
`break`.  The second component is the flag `found`. -/
def markDone (id : Int) (now : Time) : List Task → List Task × Bool
  | [] => ([], false)
  | t :: ts =>
    if t.ID = id then
      ({ t with Done := true, DoneAt := now } :: ts, true)
    else
      (t :: (markDone id now ts).1, (markDone id now ts).2)

/-- The loop of the `rm` command: `out` collects the tasks whose id differs,
`found` records whether one was skipped. -/
def rmLoop (id : Int) (tasks : List Task) : List Task × Bool :=
  tasks.foldl
    (fun acc t => if t.ID = id then (acc.1, true) else (acc.1 ++ [t], acc.2))
    ([], false)

/-- The tail of every mutating command: call `saveTasks`, report a failure and
exit 1, or print the confirmation. -/
def finish (tasks : List Task) (saveErr : Option String) (confirm : String) : Outcome :=
  match saveErr with
  | some e => ⟨["Error saving tasks: " ++ e ++ "\n"], 1, some tasks⟩
  | none => ⟨[confirm], 0, some tasks⟩

/-- The function `main` of `main.go`.

* `args` is `os.Args` (program name first);
* `loaded` is the result of `loadTasks()`;
* `now` is the value of `time.Now()`;
* `saveErr` is the error `saveTasks` returns if it is called (`none` for `nil`). -/
def main (lib : Lib) (args : List String) (loaded : Except String (List Task))
    (now : Time) (saveErr : Option String) : Outcome :=
  match args with
  | [] => ⟨usage, 1, none⟩
  | [_] => ⟨usage, 1, none⟩
  | _ :: a1 :: rest =>
    let cmd := lib.ToLower a1
    match loaded with
    | .error e => ⟨["Error loading tasks: " ++ e ++ "\n"], 1, none⟩
    | .ok tasks =>
      if cmd = "add" then
        match rest with
        | [] => ⟨["Missing title.\n"], 1, none⟩
        | _ :: _ =>
          let title := String.intercalate " " rest
          let task : Task :=
            { ID := nextID tasks, Title := title, Done := false,
              CreatedAt := now, DoneAt := Time.zero }
          finish (tasks ++ [task]) saveErr
            ("Added #" ++ fmtInt task.ID ++ ": " ++ task.Title ++ "\n")
      else if cmd = "list" then
        match tasks with
        | [] => ⟨["No tasks yet.\n"], 0, none⟩
        | _ :: _ => ⟨tasks.map renderTask, 0, none⟩
      else if cmd = "done" then
        match rest with
        | [] => ⟨["Missing id.\n"], 1, none⟩
        | a2 :: _ =>
          match lib.Atoi a2 with
          | none => ⟨["Invalid id.\n"], 1, none⟩
          | some id =>
            let r := markDone id now tasks
            if r.2 then
              finish r.1 saveErr ("Marked done: " ++ fmtInt id ++ "\n")
            else
              ⟨["Task not found.\n"], 1, none⟩
      else if cmd = "rm" then
        match rest with
        | [] => ⟨["Missing id.\n"], 1, none⟩
        | a2 :: _ =>
          match lib.Atoi a2 with
          | none => ⟨["Invalid id.\n"], 1, none⟩
          | some id =>
            let r := rmLoop id tasks
            if r.2 then
              finish r.1 saveErr ("Removed: " ++ fmtInt id ++ "\n")
            else
              ⟨["Task not found.\n"], 1, none⟩
      else
        ⟨usage, 1, none⟩

/-! ## A concrete instance of the library functions -/

/-- ASCII model of `strings.ToLower`: lowers the letters `A`-`Z` and leaves every
other character as it is.  The library function also folds letters outside ASCII;
this instance is only evaluated on ASCII commands, where both agree. -/
def asciiLower (s : String) : String := String.mk (s.data.map Char.toLower)

/-- Value of a decimal digit. -/
def digitVal (c : Char) : Option Nat :=
  if '0' ≤ c ∧ c ≤ '9' then some (c.toNat - 48) else none

/-- Reads a run of decimal digits, most significant first. -/
def parseDigits : List Char → Nat → Option Nat
  | [], acc => some acc
  | c :: cs, acc =>
    match digitVal c with
    | none => none
    | some d => parseDigits cs (acc * 10 + d)

/-- The digits of a signed decimal numeral, checked against the range of `int`. -/
def parseSigned (neg : Bool) (cs : List Char) : Option Int :=
  match cs with
  | [] => none
  | _ :: _ =>
    match parseDigits cs 0 with
    | none => none
    | some n =>
      let v : Int := if neg then -(n : Int) else (n : Int)
      if minInt ≤ v ∧ v ≤ maxInt then some v else none

/-- Decimal model of `strconv.Atoi`: optional sign, at least one digit, in range. -/
def atoi (s : String) : Option Int :=
  match s.data with
  | '-' :: cs => parseSigned true cs
  | '+' :: cs => parseSigned false cs
  | cs => parseSigned false cs

/-- The library instance used to evaluate runs. -/
def goLib : Lib := ⟨asciiLower, atoi⟩

/-! ## Sequences of runs against one store -/

/-- The inputs of one run that come from the user and the clock. -/
structure Invocation where
  args : List String
  now : Time
deriving DecidableEq, Repr

/-- One run on a store that loads without error and whose save succeeds. -/
def exec (lib : Lib) (store : List Task) (r : Invocation) : Outcome :=
  main lib r.args (.ok store) r.now none

/-- The persisted list after a run: the saved list, or the old one if none was saved. -/
def persist (store : List Task) (o : Outcome) : List Task :=
  match o.saved with
  | some l => l
  | none => store

/-- The store after a sequence of runs. -/
def runAll (lib : Lib) : List Task → List Invocation → List Task
  | store, [] => store
  | store, r :: rs => runAll lib (persist store (exec lib store r)) rs

/-- The outcomes of a sequence of runs, in order. -/
def trace (lib : Lib) : List Task → List Invocation → List Outcome
  | _, [] => []
  | store, r :: rs => exec lib store r :: trace lib (persist store (exec lib store r)) rs

/-- The id of the task a run appended, read off the list it saved. -/
def appendedID (o : Outcome) : Option Int :=
  match o.saved with
  | some l => (l.getLast?).map Task.ID
  | none => none

/-- Tells whether a run is an `add` with at least one title word: the command
lowers to "add" and `len(os.Args) >= 3`. -/
def isAdd (lib : Lib) (r : Invocation) : Bool :=
  match r.args with
  | _ :: c :: _ :: _ => decide (lib.ToLower c = "add")
  | _ => false

/-- A run is an `add` with at least one title word. -/
abbrev IsAdd (lib : Lib) (r : Invocation) : Prop := isAdd lib r = true

/-- The ids assigned by the `add` runs of a sequence, in order. -/
def addedIDs (lib : Lib) : List Task → List Invocation → List Int
  | _, [] => []
  | store, r :: rs =>
    (if isAdd lib r then (appendedID (exec lib store r)).toList else []) ++
      addedIDs lib (persist store (exec lib store r)) rs

/-! ## Vocabulary of the specification -/

/-- States that `m` is the maximum id present in the list. -/
def IsMaxID (L : List Task) (m : Int) : Prop :=
  (∃ t ∈ L, t.ID = m) ∧ ∀ t ∈ L, t.ID ≤ m

instance decIsMaxID (L : List Task) (m : Int) : Decidable (IsMaxID L m) := by
  unfold IsMaxID
  infer_instance

/-- The ids of a list of tasks, in stored order. -/
def ids (L : List Task) : List Int := L.map Task.ID

/-! ## Lemmas on machine integers and `nextID` -/

theorem maxInt_eq : maxInt = 9223372036854775807 := by decide

theorem wrapInt_of_inRange (x : Int) (h1 : minInt ≤ x) (h2 : x ≤ maxInt) : wrapInt x = x := by
  unfold wrapInt
  unfold minInt at h1
  unfold maxInt at h2
  rw [Int.emod_eq_of_lt] <;> omega

theorem maxLoop_append (m : Int) (L : List Task) (t : Task) :
    maxLoop m (L ++ [t]) = if t.ID > maxLoop m L then t.ID else maxLoop m L := by
  simp [maxLoop, List.foldl_append]

theorem le_maxLoop (m : Int) (L : List Task) : m ≤ maxLoop m L := by
  induction L using List.reverseRecOn with
  | nil => simp [maxLoop]
  | append_singleton L t ih =>
    rw [maxLoop_append]
    split <;> omega

theorem mem_le_maxLoop (m : Int) (L : List Task) : ∀ t ∈ L, t.ID ≤ maxLoop m L := by
  induction L using List.reverseRecOn with
  | nil => simp
  | append_singleton L t ih =>
    intro u hu
    rw [maxLoop_append]
    rcases List.mem_append.mp hu with h | h
    · have := ih u h
      split <;> omega
    · have : u = t := by simpa using h
      subst this
      split <;> omega

theorem maxLoop_attained (m : Int) (L : List Task) :
    maxLoop m L = m ∨ ∃ t ∈ L, t.ID = maxLoop m L := by
  induction L using List.reverseRecOn with
  | nil => left; simp [maxLoop]
  | append_singleton L t ih =>
    rw [maxLoop_append]
    split
    · right; exact ⟨t, by simp, rfl⟩
    · rcases ih with h | ⟨u, hu, h⟩
      · left; exact h
      · right; exact ⟨u, by simp [hu], h⟩

theorem maxLoop_zero_of_isMaxID (L : List Task) (m : Int) (h : IsMaxID L m) :
    maxLoop 0 L = max 0 m := by
  obtain ⟨⟨t, ht, htm⟩, hle⟩ := h
  have h0 := le_maxLoop 0 L
  have h1 := mem_le_maxLoop 0 L t ht
  rcases maxLoop_attained 0 L with h2 | ⟨u, hu, h2⟩
  · rw [h2] at h1 ⊢
    omega
  · have := hle u hu
    omega

/-- Without overflow the fresh id is one more than the running maximum, positive,
and exceeds every id of the list. -/
theorem nextID_fresh (L : List Task) (h : ∀ t ∈ L, t.ID < maxInt) :
    nextID L = maxLoop 0 L + 1 ∧ 0 < nextID L ∧ ∀ t ∈ L, t.ID < nextID L := by
  have h0 := le_maxLoop 0 L
  have hlt : maxLoop 0 L < maxInt := by
    rcases maxLoop_attained 0 L with h2 | ⟨u, hu, h2⟩
    · rw [h2]; decide
    · rw [← h2]; exact h u hu
  have hw : nextID L = maxLoop 0 L + 1 := by
    unfold nextID
    apply wrapInt_of_inRange
    · unfold minInt; omega
    · omega
  rw [hw]
  refine ⟨rfl, by omega, fun t ht => ?_⟩
  have := mem_le_maxLoop 0 L t ht
  omega

theorem nextID_le_succ (L : List Task) (k : Int) (h0 : 0 ≤ k) (hk : k < maxInt)
    (h : ∀ t ∈ L, t.ID ≤ k) : nextID L ≤ k + 1 := by
  have hlt : ∀ t ∈ L, t.ID < maxInt := fun t ht => lt_of_le_of_lt (h t ht) hk
  rw [(nextID_fresh L hlt).1]
  rcases maxLoop_attained 0 L with h2 | ⟨u, hu, h2⟩
  · rw [h2]; omega
  · rw [← h2]; have := h u hu; omega

/-! ## Lemmas on the loops of `done` and `rm` -/

theorem markDone_found (id : Int) (now : Time) (L : List Task) :
    (markDone id now L).2 = true ↔ ∃ t ∈ L, t.ID = id := by
  induction L with
  | nil => simp [markDone]
  | cons t ts ih =>
    unfold markDone
    by_cases h : t.ID = id
    · simp [h]
    · simp [h, ih]

theorem markDone_ids (id : Int) (now : Time) (L : List Task) :
    ids (markDone id now L).1 = ids L := by
  induction L with
  | nil => simp [markDone]
  | cons t ts ih =>
    unfold markDone
    by_cases h : t.ID = id
    · simp [h, ids]
    · simp only [h, if_false, ids, List.map_cons] at ih ⊢
      rw [show List.map Task.ID (markDone id now ts).1 = List.map Task.ID ts from ih]

/-- The list computed by the loop of `done`: the first task with the id, if any,
is replaced at its position, nothing else moves. -/
theorem markDone_eq_set (id : Int) (now : Time) (L : List Task) (h : ∃ t ∈ L, t.ID = id) :
    ∃ i t, L[i]? = some t ∧ t.ID = id ∧
      (∀ j u, j < i → L[j]? = some u → u.ID ≠ id) ∧
      (markDone id now L).1 = L.set i ⟨t.ID, t.Title, true, t.CreatedAt, now⟩ := by
  induction L with
  | nil => simp at h
  | cons a as ih =>
    by_cases ha : a.ID = id
    · refine ⟨0, a, by simp, ha, ?_, ?_⟩
      · intro j u hj; omega
      · simp [markDone, ha]
    · have h2 : ∃ t ∈ as, t.ID = id := by
        obtain ⟨t, ht, hid⟩ := h
        rcases List.mem_cons.mp ht with e | e
        · subst e; exact absurd hid ha
        · exact ⟨t, e, hid⟩
      obtain ⟨i, t, hi, hid, hfirst, heq⟩ := ih h2
      refine ⟨i + 1, t, by simpa using hi, hid, ?_, ?_⟩
      · intro j u hj hu
        cases j with
        | zero =>
          have : a = u := by simpa using hu
          subst this; exact ha
        | succ j => exact hfirst j u (by omega) (by simpa using hu)
      · simp [markDone, ha, heq]

theorem rmLoop_append (id : Int) (L : List Task) (t : Task) :
    rmLoop id (L ++ [t]) =
      if t.ID = id then ((rmLoop id L).1, true)
      else ((rmLoop id L).1 ++ [t], (rmLoop id L).2) := by
  simp [rmLoop, List.foldl_append]

theorem rmLoop_out (id : Int) (L : List Task) :
    (rmLoop id L).1 = L.filter (fun t => decide (t.ID ≠ id)) := by
  induction L using List.reverseRecOn with
  | nil => simp [rmLoop]
  | append_singleton L t ih =>
    rw [rmLoop_append]
    by_cases h : t.ID = id
    · simp [h, ih, List.filter_append]
    · simp [h, ih, List.filter_append]

theorem rmLoop_found (id : Int) (L : List Task) :
    (rmLoop id L).2 = true ↔ ∃ t ∈ L, t.ID = id := by
  induction L using List.reverseRecOn with
  | nil => simp [rmLoop]
  | append_singleton L t ih =>
    rw [rmLoop_append]
    by_cases h : t.ID = id
    · simp only [h, if_true, true_iff]
      exact ⟨t, by simp, h⟩
    · simp only [h, if_false, ih]
      constructor
      · rintro ⟨u, hu, e⟩; exact ⟨u, by simp [hu], e⟩
      · rintro ⟨u, hu, e⟩
        rcases List.mem_append.mp hu with m | m
        · exact ⟨u, m, e⟩
        · have : u = t := by simpa using m
          subst this; exact absurd e h

/-- With pairwise distinct ids, dropping the tasks with one present id drops one task. -/
theorem filter_ne_length (id : Int) (L : List Task) (hn : (ids L).Nodup)
    (h : ∃ t ∈ L, t.ID = id) :
    (L.filter (fun t => decide (t.ID ≠ id))).length + 1 = L.length := by
  induction L with
  | nil => simp at h
  | cons a as ih =>
    have hn2 : (ids as).Nodup := by
      simp only [ids, List.map_cons, List.nodup_cons] at hn; exact hn.2
    have hna : a.ID ∉ ids as := by
      simp only [ids, List.map_cons, List.nodup_cons] at hn; exact hn.1
    by_cases ha : a.ID = id
    · have hall : ∀ t ∈ as, decide (t.ID ≠ id) = true := by
        intro t ht
        have : t.ID ≠ id := by
          intro e
          apply hna
          rw [ha, ← e]
          exact List.mem_map_of_mem Task.ID ht
        simpa using this
      have hf : as.filter (fun t => decide (t.ID ≠ id)) = as :=
        List.filter_eq_self.mpr hall
      rw [List.filter_cons_of_neg (by simp [ha]), hf, List.length_cons]
    · have h2 : ∃ t ∈ as, t.ID = id := by
        obtain ⟨t, ht, hid⟩ := h
        rcases List.mem_cons.mp ht with e | e
        · subst e; exact absurd hid ha
        · exact ⟨t, e, hid⟩
      have := ih hn2 h2
      rw [List.filter_cons_of_pos (by simp [ha]), List.length_cons, List.length_cons]
      omega

/-! ## The branches of `main` -/

theorem main_add (lib : Lib) (L : List Task) (p c w : String) (ws : List String)
    (now : Time) (saveErr : Option String) (hc : lib.ToLower c = "add") :
    main lib (p :: c :: w :: ws) (.ok L) now saveErr =
      finish (L ++ [⟨nextID L, String.intercalate " " (w :: ws), false, now, Time.zero⟩]) saveErr
        ("Added #" ++ fmtInt (nextID L) ++ ": " ++ String.intercalate " " (w :: ws) ++ "\n") := by
  simp [main, hc]

theorem main_list (lib : Lib) (L : List Task) (p c : String) (rest : List String)
    (now : Time) (saveErr : Option String) (hc : lib.ToLower c = "list") :
    main lib (p :: c :: rest) (.ok L) now saveErr =
      if L = [] then ⟨["No tasks yet.\n"], 0, none⟩ else ⟨L.map renderTask, 0, none⟩ := by
  cases L <;> simp [main, hc]

theorem main_done (lib : Lib) (L : List Task) (p c a : String) (rest : List String) (id : Int)
    (now : Time) (saveErr : Option String) (hc : lib.ToLower c = "done")
    (ha : lib.Atoi a = some id) :
    main lib (p :: c :: a :: rest) (.ok L) now saveErr =
      if (markDone id now L).2 = true then
        finish (markDone id now L).1 saveErr ("Marked done: " ++ fmtInt id ++ "\n")
      else ⟨["Task not found.\n"], 1, none⟩ := by
  simp [main, hc, ha]

theorem main_rm (lib : Lib) (L : List Task) (p c a : String) (rest : List String) (id : Int)
    (now : Time) (saveErr : Option String) (hc : lib.ToLower c = "rm")
    (ha : lib.Atoi a = some id) :
    main lib (p :: c :: a :: rest) (.ok L) now saveErr =
      if (rmLoop id L).2 = true then
        finish (rmLoop id L).1 saveErr ("Removed: " ++ fmtInt id ++ "\n")
      else ⟨["Task not found.\n"], 1, none⟩ := by
  simp [main, hc, ha]

theorem finish_saved (L : List Task) (saveErr : Option String) (msg : String) :
    (finish L saveErr msg).saved = some L := by
  cases saveErr <;> rfl

theorem finish_ok (L : List Task) (msg : String) :
    finish L none msg = ⟨[msg], 0, some L⟩ := rfl

/-- C1. For every loaded list `L` and every argument vector with at least one title
word, `add` hands to `saveTasks` exactly `L ++ [t]`, where `t` has id `nextID L`,
the title words joined by single spaces, `done = false`, `created_at = now` and a
zero `done_at`; when the save succeeds it exits 0 and confirms.  With no title
word it prints "Missing title.", exits 1 and saves nothing. -/
theorem add_saves_appended_task (lib : Lib) (L : List Task) (p c w : String) (ws : List String)
    (now : Time) (saveErr : Option String) (hc : lib.ToLower c = "add") :
    (main lib (p :: c :: w :: ws) (.ok L) now saveErr).saved =
        some (L ++ [⟨nextID L, String.intercalate " " (w :: ws), false, now, Time.zero⟩]) ∧
    (saveErr = none →
      (main lib (p :: c :: w :: ws) (.ok L) now saveErr).exit = 0 ∧
      (main lib (p :: c :: w :: ws) (.ok L) now saveErr).stdout =
        ["Added #" ++ fmtInt (nextID L) ++ ": " ++ String.intercalate " " (w :: ws) ++ "\n"]) ∧
    main lib [p, c] (.ok L) now saveErr = ⟨["Missing title.\n"], 1, none⟩ := by
  refine ⟨?_, ?_, ?_⟩
  · rw [main_add lib L p c w ws now saveErr hc, finish_saved]
  · intro h
    subst h
    rw [main_add lib L p c w ws now none hc, finish_ok]
    exact ⟨rfl, rfl⟩
  · simp [main, hc]

theorem add_saves_appended_task_witness :
    goLib.ToLower "add" = "add" ∧
    (main goLib ["tasker", "add", "Buy", "milk"] (.ok []) ⟨5⟩ none).saved =
      some [⟨1, "Buy milk", false, ⟨5⟩, Time.zero⟩] :=
  ⟨by decide, (add_saves_appended_task goLib [] "tasker" "add" "Buy" ["milk"] ⟨5⟩ none
    (by decide)).1⟩

/-- C2 (as the code computes it). `nextID` returns 1 on the empty list.  On a list
whose maximum id is `m` it returns `1 + max 0 m` wrapped to 64 bits; this is
exactly `1 + m` whenever `0 ≤ m` and `m` is below the largest `int`. -/
theorem nextID_spec (L : List Task) (m : Int) (hm : IsMaxID L m) :
    nextID [] = 1 ∧
    nextID L = wrapInt (1 + max 0 m) ∧
    (0 ≤ m → m < maxInt → nextID L = 1 + m) := by
  have hloop := maxLoop_zero_of_isMaxID L m hm
  refine ⟨by decide, ?_, ?_⟩
  · unfold nextID
    rw [hloop, add_comm]
  · intro h0 h1
    unfold nextID
    rw [hloop, max_eq_right h0, add_comm]
    apply wrapInt_of_inRange
    · unfold minInt; omega
    · omega

theorem nextID_spec_witness :
    IsMaxID [⟨3, "a", false, ⟨1⟩, Time.zero⟩, ⟨7, "b", true, ⟨2⟩, ⟨3⟩⟩] 7 ∧
    nextID [⟨3, "a", false, ⟨1⟩, Time.zero⟩, ⟨7, "b", true, ⟨2⟩, ⟨3⟩⟩] = 1 + 7 :=
  ⟨(by decide),
   (nextID_spec [⟨3, "a", false, ⟨1⟩, Time.zero⟩, ⟨7, "b", true, ⟨2⟩, ⟨3⟩⟩] 7
      (by decide)).2.2 (by decide) (by decide)⟩

/-- C2 as stated fails: on a non-empty list whose maximum id is `-5` the result is
`1`, not `1 + (-5)`; and on a list whose maximum id is the largest `int` the
result is the smallest `int`, not one more than the maximum. -/
theorem nextID_not_one_plus_max :
    (IsMaxID [⟨-5, "a", false, ⟨1⟩, Time.zero⟩] (-5) ∧
      nextID [⟨-5, "a", false, ⟨1⟩, Time.zero⟩] = 1 ∧
      nextID [⟨-5, "a", false, ⟨1⟩, Time.zero⟩] ≠ 1 + (-5)) ∧
    (IsMaxID [⟨9223372036854775807, "a", false, ⟨1⟩, Time.zero⟩] 9223372036854775807 ∧
      nextID [⟨9223372036854775807, "a", false, ⟨1⟩, Time.zero⟩] = -9223372036854775808 ∧
      nextID [⟨9223372036854775807, "a", false, ⟨1⟩, Time.zero⟩] ≠ 1 + 9223372036854775807) :=
  ⟨⟨(by decide), by decide, by decide⟩,
   ⟨(by decide), by decide, by decide⟩⟩

/-- C5. For every list `L` and every id that occurs in `L`, `done` hands to
`saveTasks` a list of the same length in which the first task with that id (at
position `i`) has `done = true` and `done_at = now`, with id, title and
`created_at` unchanged, and every other position (later tasks with the same id
included) holds the task of `L`; the previous value of `done` plays no role.
When the save succeeds the run exits 0 and confirms. -/
theorem done_marks_first_match (lib : Lib) (L : List Task) (p c a : String)
    (rest : List String) (id : Int) (now : Time) (saveErr : Option String)
    (hc : lib.ToLower c = "done") (ha : lib.Atoi a = some id) (hmem : ∃ t ∈ L, t.ID = id) :
    ∃ (i : Nat) (t : Task) (L' : List Task),
      L[i]? = some t ∧ t.ID = id ∧
      (∀ (j : Nat) (u : Task), j < i → L[j]? = some u → u.ID ≠ id) ∧
      (main lib (p :: c :: a :: rest) (.ok L) now saveErr).saved = some L' ∧
      L'.length = L.length ∧
      L'[i]? = some ⟨t.ID, t.Title, true, t.CreatedAt, now⟩ ∧
      (∀ j : Nat, j ≠ i → L'[j]? = L[j]?) ∧
      (saveErr = none →
        (main lib (p :: c :: a :: rest) (.ok L) now saveErr).exit = 0 ∧
        (main lib (p :: c :: a :: rest) (.ok L) now saveErr).stdout =
          ["Marked done: " ++ fmtInt id ++ "\n"]) := by
  obtain ⟨i, t, hi, hid, hfirst, heq⟩ := markDone_eq_set id now L hmem
  have hfound : (markDone id now L).2 = true := (markDone_found id now L).mpr hmem
  have hmain := main_done lib L p c a rest id now saveErr hc ha
  rw [if_pos hfound] at hmain
  have hlt : i < L.length := by
    rcases Nat.lt_or_ge i L.length with h | h
    · exact h
    · rw [List.getElem?_eq_none h] at hi; cases hi
  refine ⟨i, t, L.set i ⟨t.ID, t.Title, true, t.CreatedAt, now⟩, hi, hid, hfirst, ?_, ?_, ?_, ?_, ?_⟩
  · rw [hmain, finish_saved, heq]
  · simp
  · simp [List.getElem?_set, hlt]
  · intro j hj
    simp [List.getElem?_set, Ne.symm hj]
  · intro h
    subst h
    rw [hmain, finish_ok]
    exact ⟨rfl, rfl⟩

theorem done_marks_first_match_witness :
    goLib.ToLower "done" = "done" ∧ goLib.Atoi "2" = some 2 ∧
    (∃ t ∈ [(⟨1, "a", false, ⟨1⟩, Time.zero⟩ : Task), ⟨2, "b", false, ⟨2⟩, Time.zero⟩], t.ID = 2) ∧
    ∃ (i : Nat) (t : Task) (L' : List Task),
      [(⟨1, "a", false, ⟨1⟩, Time.zero⟩ : Task), ⟨2, "b", false, ⟨2⟩, Time.zero⟩][i]? = some t ∧
      t.ID = 2 ∧
      (∀ (j : Nat) (u : Task), j < i →
        [(⟨1, "a", false, ⟨1⟩, Time.zero⟩ : Task), ⟨2, "b", false, ⟨2⟩, Time.zero⟩][j]? = some u →
        u.ID ≠ 2) ∧
      (main goLib ("tasker" :: "done" :: "2" :: [])
        (.ok [⟨1, "a", false, ⟨1⟩, Time.zero⟩, ⟨2, "b", false, ⟨2⟩, Time.zero⟩]) ⟨9⟩ none).saved
          = some L' ∧
      L'.length =
        [(⟨1, "a", false, ⟨1⟩, Time.zero⟩ : Task), ⟨2, "b", false, ⟨2⟩, Time.zero⟩].length ∧
      L'[i]? = some ⟨t.ID, t.Title, true, t.CreatedAt, ⟨9⟩⟩ ∧
      (∀ j : Nat, j ≠ i →
        L'[j]? =
          [(⟨1, "a", false, ⟨1⟩, Time.zero⟩ : Task), ⟨2, "b", false, ⟨2⟩, Time.zero⟩][j]?) ∧
      ((none : Option String) = none →
        (main goLib ("tasker" :: "done" :: "2" :: [])
          (.ok [⟨1, "a", false, ⟨1⟩, Time.zero⟩, ⟨2, "b", false, ⟨2⟩, Time.zero⟩]) ⟨9⟩ none).exit
            = 0 ∧
        (main goLib ("tasker" :: "done" :: "2" :: [])
          (.ok [⟨1, "a", false, ⟨1⟩, Time.zero⟩, ⟨2, "b", false, ⟨2⟩, Time.zero⟩]) ⟨9⟩ none).stdout
            = ["Marked done: " ++ fmtInt 2 ++ "\n"]) :=
  ⟨by decide, by decide, by decide,
   done_marks_first_match goLib
     [⟨1, "a", false, ⟨1⟩, Time.zero⟩, ⟨2, "b", false, ⟨2⟩, Time.zero⟩]
     "tasker" "done" "2" [] 2 ⟨9⟩ none (by decide) (by decide) (by decide)⟩

/-- C6. For every list `L` and every id that occurs in `L`, `rm` hands to
`saveTasks` exactly the tasks of `L` whose id differs from the argument, unchanged
and in the order of `L`; when the ids of `L` are pairwise distinct the saved list is
one shorter than `L`.  When the save succeeds the run exits 0 and confirms. -/
theorem rm_saves_filtered (lib : Lib) (L : List Task) (p c a : String)
    (rest : List String) (id : Int) (now : Time) (saveErr : Option String)
    (hc : lib.ToLower c = "rm") (ha : lib.Atoi a = some id) (hmem : ∃ t ∈ L, t.ID = id) :
    (main lib (p :: c :: a :: rest) (.ok L) now saveErr).saved =
        some (L.filter (fun t => decide (t.ID ≠ id))) ∧
    ((ids L).Nodup → (L.filter (fun t => decide (t.ID ≠ id))).length + 1 = L.length) ∧
    (saveErr = none →
      (main lib (p :: c :: a :: rest) (.ok L) now saveErr).exit = 0 ∧
      (main lib (p :: c :: a :: rest) (.ok L) now saveErr).stdout =
        ["Removed: " ++ fmtInt id ++ "\n"]) := by
  have hfound : (rmLoop id L).2 = true := (rmLoop_found id L).mpr hmem
  have hmain := main_rm lib L p c a rest id now saveErr hc ha
  rw [if_pos hfound] at hmain
  refine ⟨?_, fun hn => filter_ne_length id L hn hmem, ?_⟩
  · rw [hmain, finish_saved, rmLoop_out]
  · intro h
    subst h
    rw [hmain, finish_ok]
    exact ⟨rfl, rfl⟩

theorem rm_saves_filtered_witness :
    goLib.ToLower "rm" = "rm" ∧ goLib.Atoi "1" = some 1 ∧
    (∃ t ∈ [(⟨1, "a", false, ⟨1⟩, Time.zero⟩ : Task), ⟨2, "b", false, ⟨2⟩, Time.zero⟩], t.ID = 1) ∧
    (main goLib ["tasker", "rm", "1"]
      (.ok [⟨1, "a", false, ⟨1⟩, Time.zero⟩, ⟨2, "b", false, ⟨2⟩, Time.zero⟩]) ⟨9⟩ none).saved =
        some [⟨2, "b", false, ⟨2⟩, Time.zero⟩] :=
  ⟨by decide, by decide, by decide,
   (rm_saves_filtered goLib
     [⟨1, "a", false, ⟨1⟩, Time.zero⟩, ⟨2, "b", false, ⟨2⟩, Time.zero⟩]
     "tasker" "rm" "1" [] 1 ⟨9⟩ none (by decide) (by decide) (by decide)).1⟩

/-- C7. For every list `L` and every id that does not occur in `L`, both `done`
and `rm` print "Task not found.", exit with status 1 and never reach `saveTasks`,
so the persisted list stays as it was. -/
theorem not_found_exits_without_save (lib : Lib) (L : List Task) (p c a : String)
    (rest : List String) (id : Int) (now : Time) (saveErr : Option String)
    (hc : lib.ToLower c = "done" ∨ lib.ToLower c = "rm") (ha : lib.Atoi a = some id)
    (hnot : ∀ t ∈ L, t.ID ≠ id) :
    main lib (p :: c :: a :: rest) (.ok L) now saveErr = ⟨["Task not found.\n"], 1, none⟩ ∧
    persist L (main lib (p :: c :: a :: rest) (.ok L) now saveErr) = L := by
  have hex : ¬ ∃ t ∈ L, t.ID = id := by
    rintro ⟨t, ht, e⟩; exact hnot t ht e
  have key : main lib (p :: c :: a :: rest) (.ok L) now saveErr =
      ⟨["Task not found.\n"], 1, none⟩ := by
    rcases hc with hc | hc
    · have hf : ¬ (markDone id now L).2 = true := fun h => hex ((markDone_found id now L).mp h)
      rw [main_done lib L p c a rest id now saveErr hc ha, if_neg hf]
    · have hf : ¬ (rmLoop id L).2 = true := fun h => hex ((rmLoop_found id L).mp h)
      rw [main_rm lib L p c a rest id now saveErr hc ha, if_neg hf]
  exact ⟨key, by rw [key]; rfl⟩

theorem not_found_exits_without_save_witness :
    (goLib.ToLower "done" = "done" ∨ goLib.ToLower "done" = "rm") ∧ goLib.Atoi "7" = some 7 ∧
    (∀ t ∈ [(⟨1, "a", false, ⟨1⟩, Time.zero⟩ : Task)], t.ID ≠ 7) ∧
    main goLib ["tasker", "done", "7"] (.ok [⟨1, "a", false, ⟨1⟩, Time.zero⟩]) ⟨9⟩ none =
      ⟨["Task not found.\n"], 1, none⟩ :=
  ⟨by decide, by decide, by decide,
   (not_found_exits_without_save goLib [⟨1, "a", false, ⟨1⟩, Time.zero⟩]
     "tasker" "done" "7" [] 7 ⟨9⟩ none (by decide) (by decide) (by decide)).1⟩

/-! ## One run seen from the store -/

/-- Every list a run hands to `saveTasks` comes from one of the three mutating
branches. -/
theorem main_saved_cases (lib : Lib) (args : List String) (L : List Task) (now : Time)
    (saveErr : Option String) :
    (main lib args (.ok L) now saveErr).saved = none ∨
    ((∃ p c w ws, args = p :: c :: w :: ws ∧ lib.ToLower c = "add") ∧
      ∃ title, (main lib args (.ok L) now saveErr).saved =
        some (L ++ [⟨nextID L, title, false, now, Time.zero⟩])) ∨
    ((¬ ∃ p c w ws, args = p :: c :: w :: ws ∧ lib.ToLower c = "add") ∧
      ∃ id, (main lib args (.ok L) now saveErr).saved = some (markDone id now L).1 ∨
        (main lib args (.ok L) now saveErr).saved = some (rmLoop id L).1) := by
  rcases args with _ | ⟨p, _ | ⟨c, rest⟩⟩
  · left; rfl
  · left; rfl
  · by_cases hadd : lib.ToLower c = "add"
    · rcases rest with _ | ⟨w, ws⟩
      · left; simp [main, hadd]
      · right; left
        refine ⟨⟨p, c, w, ws, rfl, hadd⟩, String.intercalate " " (w :: ws), ?_⟩
        rw [main_add lib L p c w ws now saveErr hadd, finish_saved]
    · have hno : ¬ ∃ p' c' w ws, p :: c :: rest = p' :: c' :: w :: ws ∧ lib.ToLower c' = "add" := by
        rintro ⟨p', c', w, ws, e, h⟩
        simp only [List.cons.injEq] at e
        rw [← e.2.1] at h
        exact hadd h
      by_cases hlist : lib.ToLower c = "list"
      · left
        rw [main_list lib L p c rest now saveErr hlist]
        split <;> rfl
      · by_cases hdone : lib.ToLower c = "done"
        · rcases rest with _ | ⟨a, rest⟩
          · left; simp [main, hdone]
          · cases hA : lib.Atoi a with
            | none => left; simp [main, hdone, hA]
            | some id =>
              rw [main_done lib L p c a rest id now saveErr hdone hA]
              by_cases hf : (markDone id now L).2 = true
              · right; right
                refine ⟨hno, id, Or.inl ?_⟩
                rw [if_pos hf, finish_saved]
              · left; rw [if_neg hf]
        · by_cases hrm : lib.ToLower c = "rm"
          · rcases rest with _ | ⟨a, rest⟩
            · left; simp [main, hrm]
            · cases hA : lib.Atoi a with
              | none => left; simp [main, hrm, hA]
              | some id =>
                rw [main_rm lib L p c a rest id now saveErr hrm hA]
                by_cases hf : (rmLoop id L).2 = true
                · right; right
                  refine ⟨hno, id, Or.inr ?_⟩
                  rw [if_pos hf, finish_saved]
                · left; rw [if_neg hf]
          · left; simp [main, hadd, hlist, hdone, hrm]

theorem isAdd_iff (lib : Lib) (r : Invocation) :
    IsAdd lib r ↔ ∃ p c w ws, r.args = p :: c :: w :: ws ∧ lib.ToLower c = "add" := by
  obtain ⟨args, now⟩ := r
  rcases args with _ | ⟨p, _ | ⟨c, _ | ⟨w, ws⟩⟩⟩
  · simp [IsAdd, isAdd]
  · simp [IsAdd, isAdd]
  · simp [IsAdd, isAdd]
  · simp only [IsAdd, isAdd, decide_eq_true_eq]
    constructor
    · intro h; exact ⟨p, c, w, ws, rfl, h⟩
    · rintro ⟨p', c', w', ws', e, h⟩
      simp only [List.cons.injEq] at e
      rw [e.2.1]; exact h

theorem exec_add (lib : Lib) (store : List Task) (r : Invocation) (h : IsAdd lib r) :
    ∃ title, exec lib store r =
      ⟨["Added #" ++ fmtInt (nextID store) ++ ": " ++ title ++ "\n"], 0,
        some (store ++ [⟨nextID store, title, false, r.now, Time.zero⟩])⟩ := by
  obtain ⟨p, c, w, ws, ha, hc⟩ := (isAdd_iff lib r).mp h
  refine ⟨String.intercalate " " (w :: ws), ?_⟩
  unfold exec
  rw [ha, main_add lib store p c w ws r.now none hc, finish_ok]

theorem persist_add (lib : Lib) (store : List Task) (r : Invocation) (h : IsAdd lib r) :
    ∃ title, persist store (exec lib store r) =
      store ++ [⟨nextID store, title, false, r.now, Time.zero⟩] := by
  obtain ⟨title, e⟩ := exec_add lib store r h
  exact ⟨title, by rw [e]; rfl⟩

theorem persist_not_add (lib : Lib) (store : List Task) (r : Invocation) (h : ¬ IsAdd lib r) :
    persist store (exec lib store r) = store ∨
    ∃ id, persist store (exec lib store r) = (markDone id r.now store).1 ∨
      persist store (exec lib store r) = (rmLoop id store).1 := by
  unfold exec persist
  rcases main_saved_cases lib r.args store r.now none with e | ⟨hadd, _⟩ | ⟨_, id, e | e⟩
  · left; rw [e]
  · exact absurd ((isAdd_iff lib r).mpr hadd) h
  · right; exact ⟨id, Or.inl (by rw [e])⟩
  · right; exact ⟨id, Or.inr (by rw [e])⟩

theorem addedIDs_cons_add (lib : Lib) (store : List Task) (r : Invocation)
    (rs : List Invocation) (h : IsAdd lib r) :
    addedIDs lib store (r :: rs) =
      nextID store :: addedIDs lib (persist store (exec lib store r)) rs := by
  obtain ⟨title, e⟩ := exec_add lib store r h
  have h2 : isAdd lib r = true := h
  simp [addedIDs, h2, appendedID, e]

theorem addedIDs_cons_not_add (lib : Lib) (store : List Task) (r : Invocation)
    (rs : List Invocation) (h : ¬ IsAdd lib r) :
    addedIDs lib store (r :: rs) = addedIDs lib (persist store (exec lib store r)) rs := by
  have h2 : isAdd lib r = false := by simpa [IsAdd] using h
  simp [addedIDs, h2]

/-! ## Adds from the empty store -/

theorem mem_ids_iff (L : List Task) (x : Int) : x ∈ ids L ↔ ∃ t ∈ L, t.ID = x := by
  simp [ids]

theorem nextID_of_ids_range (store : List Task) (k : Nat)
    (hids : ids store = (List.range k).map (fun i : Nat => (i : Int) + 1))
    (hk : (k : Int) + 1 ≤ maxInt) : nextID store = (k : Int) + 1 := by
  have hmem : ∀ t ∈ store, 1 ≤ t.ID ∧ t.ID ≤ k := by
    intro t ht
    have : t.ID ∈ ids store := (mem_ids_iff store t.ID).mpr ⟨t, ht, rfl⟩
    rw [hids] at this
    obtain ⟨i, hi, e⟩ := List.mem_map.mp this
    have := List.mem_range.mp hi
    omega
  have hle : maxLoop 0 store ≤ k := by
    rcases maxLoop_attained 0 store with h | ⟨t, ht, h⟩
    · rw [h]; omega
    · rw [← h]; exact (hmem t ht).2
  have hge : (k : Int) ≤ maxLoop 0 store := by
    rcases Nat.eq_zero_or_pos k with h | h
    · subst h; exact le_maxLoop 0 store
    · have : ((k - 1 : Nat) : Int) + 1 ∈ ids store := by
        rw [hids]
        exact List.mem_map.mpr ⟨k - 1, List.mem_range.mpr (by omega), rfl⟩
      obtain ⟨t, ht, e⟩ := (mem_ids_iff store _).mp this
      have := mem_le_maxLoop 0 store t ht
      omega
  unfold nextID
  rw [show maxLoop 0 store = (k : Int) by omega]
  apply wrapInt_of_inRange
  · unfold minInt; omega
  · exact hk

theorem adds_from (lib : Lib) (invs : List Invocation) :
    ∀ (store : List Task) (k : Nat),
      ids store = (List.range k).map (fun i : Nat => (i : Int) + 1) →
      (∀ r ∈ invs, IsAdd lib r) →
      ((k + invs.length : Nat) : Int) ≤ maxInt →
      addedIDs lib store invs = (List.range' k invs.length).map (fun i : Nat => (i : Int) + 1) ∧
      ids (runAll lib store invs) =
        (List.range (k + invs.length)).map (fun i : Nat => (i : Int) + 1) ∧
      (∀ o ∈ trace lib store invs, o.exit = 0) := by
  induction invs with
  | nil =>
    intro store k hids _ _
    simpa [addedIDs, runAll, trace] using hids
  | cons r rs ih =>
    intro store k hids hadd hlen
    have hr : IsAdd lib r := hadd r (by simp)
    have hrs : ∀ x ∈ rs, IsAdd lib x := fun x hx => hadd x (by simp [hx])
    simp only [List.length_cons] at hlen
    have hnext : nextID store = (k : Int) + 1 :=
      nextID_of_ids_range store k hids (by rw [maxInt_eq] at hlen ⊢; push_cast at hlen ⊢; omega)
    obtain ⟨title, e⟩ := exec_add lib store r hr
    have hp : persist store (exec lib store r) =
        store ++ [⟨nextID store, title, false, r.now, Time.zero⟩] := by rw [e]; rfl
    have hids2 : ids (persist store (exec lib store r)) =
        (List.range (k + 1)).map (fun i : Nat => (i : Int) + 1) := by
      rw [hp, List.range_succ]
      simp only [ids, List.map_append, List.map_cons, List.map_nil] at hids ⊢
      rw [hids, hnext]
    obtain ⟨h1, h2, h3⟩ := ih (persist store (exec lib store r)) (k + 1) hids2 hrs
      (by rw [maxInt_eq] at hlen ⊢; push_cast at hlen ⊢; omega)
    refine ⟨?_, ?_, ?_⟩
    · rw [addedIDs_cons_add lib store r rs hr, h1, hnext]
      simp [List.range']
    · simp only [runAll, List.length_cons]
      rw [h2]
      congr 2
      omega
    · intro o ho
      simp only [trace, List.mem_cons] at ho
      rcases ho with ho | ho
      · rw [ho, e]
      · exact h3 o ho

/-- C3. For every sequence of `n` successful `add` runs starting from the empty
store (`n` within the range of `int`, as the length of a Go slice is), the ids
assigned are `1, 2, ..., n` in that order: they are strictly increasing, pairwise
distinct, they are the ids of the stored tasks in stored order, and every run
exits 0. -/
theorem add_ids_count_up (lib : Lib) (invs : List Invocation)
    (hadd : ∀ r ∈ invs, IsAdd lib r) (hlen : (invs.length : Int) ≤ maxInt) :
    addedIDs lib [] invs = (List.range invs.length).map (fun i : Nat => (i : Int) + 1) ∧
    (addedIDs lib [] invs).Pairwise (fun a b => a < b) ∧
    (addedIDs lib [] invs).Nodup ∧
    ids (runAll lib [] invs) = (List.range invs.length).map (fun i : Nat => (i : Int) + 1) ∧
    (∀ o ∈ trace lib [] invs, o.exit = 0) := by
  obtain ⟨h1, h2, h3⟩ := adds_from lib invs [] 0 (by simp [ids]) hadd (by simpa using hlen)
  have e1 : addedIDs lib [] invs = (List.range invs.length).map (fun i : Nat => (i : Int) + 1) := by
    rw [h1, List.range_eq_range']
  have hpw : ((List.range invs.length).map (fun i : Nat => (i : Int) + 1)).Pairwise
      (fun a b => a < b) := by
    rw [List.pairwise_map]
    exact List.Pairwise.imp (fun h => by omega) (List.pairwise_lt_range _)
  refine ⟨e1, ?_, ?_, ?_, h3⟩
  · rw [e1]; exact hpw
  · rw [e1]; exact hpw.imp (fun h => ne_of_lt h)
  · simpa using h2

/-! ## Invariants of the store -/

theorem ids_append_single (L : List Task) (t : Task) : ids (L ++ [t]) = ids L ++ [t.ID] := by
  simp [ids]

theorem rmLoop_ids_sublist (id : Int) (L : List Task) :
    List.Sublist (ids (rmLoop id L).1) (ids L) := by
  rw [rmLoop_out]
  exact (List.filter_sublist L).map Task.ID

/-- The list handed to `saveTasks` has pairwise distinct ids if the loaded one has
and no loaded id is the largest `int`. -/
theorem main_saved_nodup (lib : Lib) (args : List String) (L L' : List Task) (now : Time)
    (saveErr : Option String) (hs : (main lib args (.ok L) now saveErr).saved = some L')
    (hn : (ids L).Nodup) (hmax : ∀ t ∈ L, t.ID < maxInt) : (ids L').Nodup := by
  rcases main_saved_cases lib args L now saveErr with e | ⟨_, title, e⟩ | ⟨_, id, e | e⟩
  · rw [e] at hs; cases hs
  · rw [e] at hs
    injection hs with hs
    subst hs
    rw [ids_append_single]
    refine List.Nodup.append hn (List.nodup_singleton _) ?_
    intro x hx hx2
    have hx3 : x = nextID L := by simpa using hx2
    obtain ⟨t, ht, e2⟩ := (mem_ids_iff L x).mp hx
    have := (nextID_fresh L hmax).2.2 t ht
    omega
  · rw [e] at hs
    injection hs with hs
    subst hs
    rw [markDone_ids]; exact hn
  · rw [e] at hs
    injection hs with hs
    subst hs
    exact hn.sublist (rmLoop_ids_sublist id L)

theorem persist_ids_subset_of_not_add (lib : Lib) (store : List Task) (r : Invocation)
    (h : ¬ IsAdd lib r) : ∀ x ∈ ids (persist store (exec lib store r)), x ∈ ids store := by
  intro x hx
  rcases persist_not_add lib store r h with e | ⟨id, e | e⟩
  · rw [e] at hx; exact hx
  · rw [e, markDone_ids] at hx; exact hx
  · rw [e] at hx; exact (rmLoop_ids_sublist id store).subset hx

theorem persist_nodup (lib : Lib) (store : List Task) (r : Invocation)
    (hn : (ids store).Nodup) (hmax : ∀ t ∈ store, t.ID < maxInt) :
    (ids (persist store (exec lib store r))).Nodup := by
  unfold persist
  cases hs : (exec lib store r).saved with
  | none => exact hn
  | some L' => exact main_saved_nodup lib r.args store L' r.now none hs hn hmax

theorem persist_bounded (lib : Lib) (store : List Task) (r : Invocation) (k : Nat)
    (hb : ∀ t ∈ store, 1 ≤ t.ID ∧ t.ID ≤ (k : Int)) (hk : (k : Int) < maxInt) :
    ∀ t ∈ persist store (exec lib store r), 1 ≤ t.ID ∧ t.ID ≤ (k : Int) + 1 := by
  have hb2 : ∀ x ∈ ids store, 1 ≤ x ∧ x ≤ (k : Int) := by
    intro x hx
    obtain ⟨t, ht, e⟩ := (mem_ids_iff store x).mp hx
    rw [← e]; exact hb t ht
  by_cases hadd : IsAdd lib r
  · obtain ⟨title, e⟩ := persist_add lib store r hadd
    rw [e]
    intro t ht
    rcases List.mem_append.mp ht with h | h
    · have := hb t h; omega
    · have e2 : t = ⟨nextID store, title, false, r.now, Time.zero⟩ := by simpa using h
      have hlt : ∀ u ∈ store, u.ID < maxInt := fun u hu => lt_of_le_of_lt (hb u hu).2 hk
      have h1 := (nextID_fresh store hlt).2.1
      have h2 := nextID_le_succ store k (by omega) hk (fun u hu => (hb u hu).2)
      rw [e2]
      show 1 ≤ nextID store ∧ nextID store ≤ (k : Int) + 1
      omega
  · intro t ht
    have := hb2 t.ID (persist_ids_subset_of_not_add lib store r hadd t.ID
      ((mem_ids_iff _ _).mpr ⟨t, ht, rfl⟩))
    omega

theorem runAll_invariant (lib : Lib) (invs : List Invocation) :
    ∀ (store : List Task) (k : Nat),
      (∀ t ∈ store, 1 ≤ t.ID ∧ t.ID ≤ (k : Int)) → (ids store).Nodup →
      ((k + invs.length : Nat) : Int) ≤ maxInt →
      (∀ t ∈ runAll lib store invs, 1 ≤ t.ID ∧ t.ID ≤ ((k + invs.length : Nat) : Int)) ∧
      (ids (runAll lib store invs)).Nodup := by
  induction invs with
  | nil =>
    intro store k hb hn _
    exact ⟨by simpa [runAll] using hb, by simpa [runAll] using hn⟩
  | cons r rs ih =>
    intro store k hb hn hlen
    simp only [List.length_cons] at hlen ⊢
    have hk : (k : Int) < maxInt := by push_cast at hlen; omega
    have hb2 := persist_bounded lib store r k hb hk
    have hn2 := persist_nodup lib store r hn
      (fun t ht => lt_of_le_of_lt (hb t ht).2 hk)
    have := ih (persist store (exec lib store r)) (k + 1)
      (by simpa using hb2) hn2 (by push_cast at hlen ⊢; omega)
    rw [show k + (rs.length + 1) = k + 1 + rs.length by omega]
    exact this

theorem runAll_append (lib : Lib) (a b : List Invocation) :
    ∀ store, runAll lib store (a ++ b) = runAll lib (runAll lib store a) b := by
  induction a with
  | nil => intro store; rfl
  | cons r rs ih => intro store; simp [runAll, ih]

theorem addedIDs_append (lib : Lib) (a b : List Invocation) :
    ∀ store, addedIDs lib store (a ++ b) =
      addedIDs lib store a ++ addedIDs lib (runAll lib store a) b := by
  induction a with
  | nil => intro store; simp [addedIDs, runAll]
  | cons r rs ih =>
    intro store
    by_cases h : IsAdd lib r
    · rw [List.cons_append, addedIDs_cons_add lib store r _ h,
        addedIDs_cons_add lib store r _ h, ih]
      simp [runAll]
    · rw [List.cons_append, addedIDs_cons_not_add lib store r _ h,
        addedIDs_cons_not_add lib store r _ h, ih]
      simp [runAll]

theorem stored_ids_were_added (lib : Lib) (invs : List Invocation) :
    ∀ store, ∀ x ∈ ids (runAll lib store invs),
      x ∈ ids store ∨ x ∈ addedIDs lib store invs := by
  induction invs with
  | nil => intro store x hx; left; simpa [runAll] using hx
  | cons r rs ih =>
    intro store x hx
    simp only [runAll] at hx
    by_cases h : IsAdd lib r
    · rw [addedIDs_cons_add lib store r rs h]
      rcases ih _ x hx with h1 | h1
      · obtain ⟨title, e⟩ := persist_add lib store r h
        rw [e, ids_append_single] at h1
        rcases List.mem_append.mp h1 with h2 | h2
        · left; exact h2
        · right
          have : x = nextID store := by simpa using h2
          rw [this]; simp
      · right; simp [h1]
    · rw [addedIDs_cons_not_add lib store r rs h]
      rcases ih _ x hx with h1 | h1
      · left; exact persist_ids_subset_of_not_add lib store r h x h1
      · right; exact h1

/-! ## Uniqueness of ids, exactly -/

/-- The fresh id is not an id of the list, unless the list holds both the largest
and the smallest `int`. -/
theorem nextID_not_mem (L : List Task) (hrange : ∀ t ∈ L, t.ID ≤ maxInt)
    (hnb : ¬ (maxInt ∈ ids L ∧ minInt ∈ ids L)) : nextID L ∉ ids L := by
  have hle : maxLoop 0 L ≤ maxInt := by
    rcases maxLoop_attained 0 L with h | ⟨t, ht, h⟩
    · rw [h]; decide
    · rw [← h]; exact hrange t ht
  by_cases hlt : maxLoop 0 L < maxInt
  · have hall : ∀ t ∈ L, t.ID < maxInt :=
      fun t ht => lt_of_le_of_lt (mem_le_maxLoop 0 L t ht) hlt
    intro hmem
    obtain ⟨t, ht, e⟩ := (mem_ids_iff L _).mp hmem
    have := (nextID_fresh L hall).2.2 t ht
    omega
  · have heq : maxLoop 0 L = maxInt := le_antisymm hle (not_lt.mp hlt)
    have hmaxmem : maxInt ∈ ids L := by
      rcases maxLoop_attained 0 L with h | ⟨t, ht, h⟩
      · rw [h] at heq
        exact absurd heq (by decide)
      · exact (mem_ids_iff L _).mpr ⟨t, ht, h.trans heq⟩
    have hnext : nextID L = minInt := by
      unfold nextID
      rw [heq]
      decide
    rw [hnext]
    intro hmin
    exact hnb ⟨hmaxmem, hmin⟩

theorem main_saved_nodup_of_not_add (lib : Lib) (args : List String) (L L' : List Task)
    (now : Time) (saveErr : Option String)
    (hno : ¬ ∃ p c w ws, args = p :: c :: w :: ws ∧ lib.ToLower c = "add")
    (hs : (main lib args (.ok L) now saveErr).saved = some L') (hn : (ids L).Nodup) :
    (ids L').Nodup := by
  rcases main_saved_cases lib args L now saveErr with e | ⟨hadd, _⟩ | ⟨_, id, e | e⟩
  · rw [e] at hs; cases hs
  · exact absurd hadd hno
  · rw [e] at hs
    injection hs with hs
    subst hs
    rw [markDone_ids]; exact hn
  · rw [e] at hs
    injection hs with hs
    subst hs
    exact hn.sublist (rmLoop_ids_sublist id L)

theorem main_saved_nodup_tight (lib : Lib) (args : List String) (L L' : List Task) (now : Time)
    (saveErr : Option String) (hs : (main lib args (.ok L) now saveErr).saved = some L')
    (hn : (ids L).Nodup) (hrange : ∀ t ∈ L, t.ID ≤ maxInt)
    (hnb : ¬ (maxInt ∈ ids L ∧ minInt ∈ ids L)) : (ids L').Nodup := by
  rcases main_saved_cases lib args L now saveErr with e | ⟨_, title, e⟩ | ⟨hno, _⟩
  · rw [e] at hs; cases hs
  · rw [e] at hs
    injection hs with hs
    subst hs
    rw [ids_append_single]
    refine List.Nodup.append hn (List.nodup_singleton _) ?_
    intro x hx hx2
    have hx3 : x = nextID L := by simpa using hx2
    rw [hx3] at hx
    exact nextID_not_mem L hrange hnb hx
  · exact main_saved_nodup_of_not_add lib args L L' now saveErr hno hs hn

theorem persist_nodup_of_not_add (lib : Lib) (store : List Task) (r : Invocation)
    (h : ¬ IsAdd lib r) (hn : (ids store).Nodup) :
    (ids (persist store (exec lib store r))).Nodup := by
  rcases persist_not_add lib store r h with e | ⟨id, e | e⟩
  · rw [e]; exact hn
  · rw [e, markDone_ids]; exact hn
  · rw [e]; exact hn.sublist (rmLoop_ids_sublist id store)

theorem runAll_nodup_of_no_add (lib : Lib) (invs : List Invocation) :
    ∀ store : List Task, (∀ r ∈ invs, ¬ IsAdd lib r) → (ids store).Nodup →
      (ids (runAll lib store invs)).Nodup := by
  induction invs with
  | nil => intro store _ hn; simpa [runAll] using hn
  | cons r rs ih =>
    intro store hno hn
    simp only [runAll]
    exact ih _ (fun x hx => hno x (by simp [hx]))
      (persist_nodup_of_not_add lib store r (hno r (by simp)) hn)

theorem runAll_nodup_counting (lib : Lib) (invs : List Invocation) :
    ∀ (store : List Task) (k : Nat),
      (∀ t ∈ store, 1 ≤ t.ID ∧ t.ID ≤ (k : Int)) → (ids store).Nodup →
      ((k + invs.countP (isAdd lib) : Nat) : Int) ≤ maxInt + 1 →
      (ids (runAll lib store invs)).Nodup := by
  induction invs with
  | nil => intro store k _ hn _; simpa [runAll] using hn
  | cons r rs ih =>
    intro store k hb hn hlen
    simp only [runAll]
    by_cases hadd : IsAdd lib r
    · have hc : (r :: rs).countP (isAdd lib) = rs.countP (isAdd lib) + 1 :=
        List.countP_cons_of_pos _ _ hadd
      rw [hc] at hlen
      by_cases hk : (k : Int) < maxInt
      · exact ih _ (k + 1) (by simpa using persist_bounded lib store r k hb hk)
          (persist_nodup lib store r hn (fun t ht => lt_of_le_of_lt (hb t ht).2 hk))
          (by push_cast at hlen ⊢; omega)
      · have hkeq : (k : Int) = maxInt := by push_cast at hlen; omega
        have hzero : rs.countP (isAdd lib) = 0 := by push_cast at hlen; omega
        have hno : ∀ x ∈ rs, ¬ IsAdd lib x := by
          intro x hx
          exact (List.countP_eq_zero.mp hzero) x hx
        have hn2 : (ids (persist store (exec lib store r))).Nodup := by
          unfold persist
          cases hs : (exec lib store r).saved with
          | none => exact hn
          | some L' =>
            refine main_saved_nodup_tight lib r.args store L' r.now none hs hn
              (fun t ht => by have := (hb t ht).2; omega) ?_
            rintro ⟨_, hmin⟩
            obtain ⟨t, ht, e⟩ := (mem_ids_iff store minInt).mp hmin
            have h1 := (hb t ht).1
            have h2 : minInt < 1 := by decide
            omega
        exact runAll_nodup_of_no_add lib rs _ hno hn2
    · have hc : (r :: rs).countP (isAdd lib) = rs.countP (isAdd lib) :=
        List.countP_cons_of_neg _ _ hadd
      rw [hc] at hlen
      refine ih _ k ?_ (persist_nodup_of_not_add lib store r hadd hn) hlen
      intro t ht
      obtain ⟨u, hu, e⟩ := (mem_ids_iff store t.ID).mp
        (persist_ids_subset_of_not_add lib store r hadd t.ID
          ((mem_ids_iff _ _).mpr ⟨t, ht, rfl⟩))
      rw [← e]; exact hb u hu


/-! ## The claims about sequences of runs -/

theorem add_ids_count_up_witness :
    (∀ r ∈ [(⟨["tasker", "add", "Buy", "milk"], ⟨5⟩⟩ : Invocation),
        ⟨["tasker", "ADD", "tea"], ⟨6⟩⟩], IsAdd goLib r) ∧
    (([(⟨["tasker", "add", "Buy", "milk"], ⟨5⟩⟩ : Invocation),
        ⟨["tasker", "ADD", "tea"], ⟨6⟩⟩].length : Int) ≤ maxInt) ∧
    addedIDs goLib [] [⟨["tasker", "add", "Buy", "milk"], ⟨5⟩⟩, ⟨["tasker", "ADD", "tea"], ⟨6⟩⟩]
      = [1, 2] :=
  have h1 : ∀ r ∈ [(⟨["tasker", "add", "Buy", "milk"], ⟨5⟩⟩ : Invocation),
      ⟨["tasker", "ADD", "tea"], ⟨6⟩⟩], IsAdd goLib r := by
    decide
  ⟨h1, by decide, (add_ids_count_up goLib _ h1 (by decide)).1⟩

/-- C4 as stated fails: from the empty store, `add a`, `rm 1`, `add b` assigns the
id 1 twice; the second `add` reuses the id of the removed task. -/
theorem removed_id_is_reused :
    trace goLib []
      [⟨["tasker", "add", "a"], ⟨1⟩⟩, ⟨["tasker", "rm", "1"], ⟨2⟩⟩, ⟨["tasker", "add", "b"], ⟨3⟩⟩]
      = [⟨["Added #1: a\n"], 0, some [⟨1, "a", false, ⟨1⟩, Time.zero⟩]⟩,
         ⟨["Removed: 1\n"], 0, some []⟩,
         ⟨["Added #1: b\n"], 0, some [⟨1, "b", false, ⟨3⟩, Time.zero⟩]⟩] ∧
    addedIDs goLib []
      [⟨["tasker", "add", "a"], ⟨1⟩⟩, ⟨["tasker", "rm", "1"], ⟨2⟩⟩, ⟨["tasker", "add", "b"], ⟨3⟩⟩]
      = [1, 1] ∧
    ¬ (addedIDs goLib []
      [⟨["tasker", "add", "a"], ⟨1⟩⟩, ⟨["tasker", "rm", "1"], ⟨2⟩⟩,
        ⟨["tasker", "add", "b"], ⟨3⟩⟩]).Nodup := by
  decide

/-- C4 (as the code behaves). For every sequence of runs (any commands) starting
from the empty store, of length below the largest `int`, an `add` issued after it
is assigned the id `nextID` of the current store; this id is greater than, hence
different from, the id of every task currently in the store, and every stored id
was assigned by an earlier `add` of the sequence.  So the new id differs from the
id of every earlier `add` whose task is still stored.  Nothing is stated about
the ids of tasks that were removed. -/
theorem fresh_id_differs_from_stored (lib : Lib) (invs : List Invocation) (r : Invocation)
    (hlen : (invs.length : Int) < maxInt) (hr : IsAdd lib r) :
    addedIDs lib [] (invs ++ [r]) = addedIDs lib [] invs ++ [nextID (runAll lib [] invs)] ∧
    (∀ t ∈ runAll lib [] invs, t.ID < nextID (runAll lib [] invs)) ∧
    (∀ t ∈ runAll lib [] invs, t.ID ≠ nextID (runAll lib [] invs)) ∧
    (∀ t ∈ runAll lib [] invs, t.ID ∈ addedIDs lib [] invs) := by
  have hinv := runAll_invariant lib invs [] 0 (by simp) (by simp [ids])
    (by rw [Nat.zero_add]; omega)
  rw [Nat.zero_add] at hinv
  have hlt : ∀ t ∈ runAll lib [] invs, t.ID < maxInt :=
    fun t ht => lt_of_le_of_lt (hinv.1 t ht).2 hlen
  have hfresh := (nextID_fresh (runAll lib [] invs) hlt).2.2
  refine ⟨?_, hfresh, fun t ht => ne_of_lt (hfresh t ht), ?_⟩
  · rw [addedIDs_append, addedIDs_cons_add lib _ r [] hr]
    simp [addedIDs]
  · intro t ht
    rcases stored_ids_were_added lib invs [] t.ID ((mem_ids_iff _ _).mpr ⟨t, ht, rfl⟩) with h | h
    · simp [ids] at h
    · exact h

theorem fresh_id_differs_from_stored_witness :
    (([(⟨["tasker", "add", "a"], ⟨1⟩⟩ : Invocation), ⟨["tasker", "add", "b"], ⟨2⟩⟩,
        ⟨["tasker", "rm", "1"], ⟨3⟩⟩].length : Int) < maxInt) ∧
    IsAdd goLib ⟨["tasker", "add", "c"], ⟨4⟩⟩ ∧
    (∀ t ∈ runAll goLib [] [⟨["tasker", "add", "a"], ⟨1⟩⟩, ⟨["tasker", "add", "b"], ⟨2⟩⟩,
        ⟨["tasker", "rm", "1"], ⟨3⟩⟩],
      t.ID ≠ nextID (runAll goLib [] [⟨["tasker", "add", "a"], ⟨1⟩⟩,
        ⟨["tasker", "add", "b"], ⟨2⟩⟩, ⟨["tasker", "rm", "1"], ⟨3⟩⟩])) :=
  ⟨by decide, by decide,
   (fresh_id_differs_from_stored goLib
      [⟨["tasker", "add", "a"], ⟨1⟩⟩, ⟨["tasker", "add", "b"], ⟨2⟩⟩, ⟨["tasker", "rm", "1"], ⟨3⟩⟩]
      ⟨["tasker", "add", "c"], ⟨4⟩⟩ (by decide) (by decide)).2.2.1⟩

/-- C8 as stated fails: a loaded list with the two distinct ids `2^63 - 1` and
`-2^63` makes `nextID` wrap around to `-2^63`, so a successful `add` saves a list
in which that id occurs twice. -/
theorem add_can_duplicate_id :
    (ids [⟨9223372036854775807, "a", false, ⟨1⟩, Time.zero⟩,
          ⟨-9223372036854775808, "b", false, ⟨2⟩, Time.zero⟩]).Nodup ∧
    main goLib ["tasker", "add", "c"]
      (.ok [⟨9223372036854775807, "a", false, ⟨1⟩, Time.zero⟩,
            ⟨-9223372036854775808, "b", false, ⟨2⟩, Time.zero⟩]) ⟨3⟩ none =
      ⟨["Added #-9223372036854775808: c\n"], 0,
        some [⟨9223372036854775807, "a", false, ⟨1⟩, Time.zero⟩,
              ⟨-9223372036854775808, "b", false, ⟨2⟩, Time.zero⟩,
              ⟨-9223372036854775808, "c", false, ⟨3⟩, Time.zero⟩]⟩ ∧
    ¬ (ids [⟨9223372036854775807, "a", false, ⟨1⟩, Time.zero⟩,
            ⟨-9223372036854775808, "b", false, ⟨2⟩, Time.zero⟩,
            ⟨-9223372036854775808, "c", false, ⟨3⟩, Time.zero⟩]).Nodup := by
  decide

/-- C8 (as the code behaves). Ids are machine integers, so no id exceeds the
largest `int`.  If the loaded list has pairwise distinct ids, then
* the list a run hands to `saveTasks` has pairwise distinct ids unless the loaded
  list holds both the largest `int` `2^63 - 1` and the smallest `int` `-2^63` as ids;
* for `done` and `rm` this needs no proviso at all;
* in particular it holds for every command whenever all loaded ids are positive.
Consequently every store reached from the empty store by a sequence of runs with
at most `2^63` `add` runs among them has pairwise distinct ids. -/
theorem unique_ids_preserved (lib : Lib) :
    (∀ (args : List String) (L L' : List Task) (now : Time) (saveErr : Option String),
      (ids L).Nodup → (∀ t ∈ L, t.ID ≤ maxInt) →
      ¬ (maxInt ∈ ids L ∧ minInt ∈ ids L) →
      (main lib args (.ok L) now saveErr).saved = some L' → (ids L').Nodup) ∧
    (∀ (L L' : List Task) (p c : String) (rest : List String) (now : Time)
      (saveErr : Option String),
      (lib.ToLower c = "done" ∨ lib.ToLower c = "rm") → (ids L).Nodup →
      (main lib (p :: c :: rest) (.ok L) now saveErr).saved = some L' → (ids L').Nodup) ∧
    (∀ (args : List String) (L L' : List Task) (now : Time) (saveErr : Option String),
      (ids L).Nodup → (∀ t ∈ L, 1 ≤ t.ID ∧ t.ID ≤ maxInt) →
      (main lib args (.ok L) now saveErr).saved = some L' → (ids L').Nodup) ∧
    (∀ invs : List Invocation, ((invs.countP (isAdd lib) : Nat) : Int) ≤ maxInt + 1 →
      (ids (runAll lib [] invs)).Nodup) := by
  refine ⟨?_, ?_, ?_, ?_⟩
  · intro args L L' now saveErr hn hrange hnb hs
    exact main_saved_nodup_tight lib args L L' now saveErr hs hn hrange hnb
  · intro L L' p c rest now saveErr hc hn hs
    refine main_saved_nodup_of_not_add lib (p :: c :: rest) L L' now saveErr ?_ hs hn
    rintro ⟨p', c', w, ws, e, h⟩
    simp only [List.cons.injEq] at e
    rw [← e.2.1] at h
    rcases hc with hc | hc <;> rw [hc] at h <;> exact absurd h (by decide)
  · intro args L L' now saveErr hn hpos hs
    refine main_saved_nodup_tight lib args L L' now saveErr hs hn
      (fun t ht => (hpos t ht).2) ?_
    rintro ⟨_, hmin⟩
    obtain ⟨t, ht, e⟩ := (mem_ids_iff L minInt).mp hmin
    have h1 := (hpos t ht).1
    have h2 : minInt < 1 := by decide
    omega
  · intro invs hlen
    exact runAll_nodup_counting lib invs [] 0 (by simp) (by simp [ids])
      (by rw [Nat.zero_add]; exact hlen)

theorem unique_ids_preserved_witness :
    ((ids [⟨9223372036854775807, "a", false, ⟨1⟩, Time.zero⟩]).Nodup ∧
      (∀ t ∈ [(⟨9223372036854775807, "a", false, ⟨1⟩, Time.zero⟩ : Task)], t.ID ≤ maxInt) ∧
      ¬ (maxInt ∈ ids [⟨9223372036854775807, "a", false, ⟨1⟩, Time.zero⟩] ∧
          minInt ∈ ids [⟨9223372036854775807, "a", false, ⟨1⟩, Time.zero⟩]) ∧
      (main goLib ["tasker", "add", "c"]
        (.ok [⟨9223372036854775807, "a", false, ⟨1⟩, Time.zero⟩]) ⟨3⟩ none).saved =
        some [⟨9223372036854775807, "a", false, ⟨1⟩, Time.zero⟩,
              ⟨-9223372036854775808, "c", false, ⟨3⟩, Time.zero⟩] ∧
      (ids [⟨9223372036854775807, "a", false, ⟨1⟩, Time.zero⟩,
            ⟨-9223372036854775808, "c", false, ⟨3⟩, Time.zero⟩]).Nodup) ∧
    ((goLib.ToLower "rm" = "done" ∨ goLib.ToLower "rm" = "rm") ∧
      (ids [⟨9223372036854775807, "a", false, ⟨1⟩, Time.zero⟩,
            ⟨-9223372036854775808, "b", false, ⟨2⟩, Time.zero⟩]).Nodup ∧
      (main goLib ("tasker" :: "rm" :: ["9223372036854775807"])
        (.ok [⟨9223372036854775807, "a", false, ⟨1⟩, Time.zero⟩,
              ⟨-9223372036854775808, "b", false, ⟨2⟩, Time.zero⟩]) ⟨3⟩ none).saved =
        some [⟨-9223372036854775808, "b", false, ⟨2⟩, Time.zero⟩] ∧
      (ids [⟨-9223372036854775808, "b", false, ⟨2⟩, Time.zero⟩]).Nodup) ∧
    ((ids [⟨1, "a", false, ⟨1⟩, Time.zero⟩, ⟨4, "b", false, ⟨2⟩, Time.zero⟩]).Nodup ∧
      (∀ t ∈ [(⟨1, "a", false, ⟨1⟩, Time.zero⟩ : Task), ⟨4, "b", false, ⟨2⟩, Time.zero⟩],
        1 ≤ t.ID ∧ t.ID ≤ maxInt) ∧
      (main goLib ["tasker", "add", "c"]
        (.ok [⟨1, "a", false, ⟨1⟩, Time.zero⟩, ⟨4, "b", false, ⟨2⟩, Time.zero⟩]) ⟨3⟩ none).saved =
        some [⟨1, "a", false, ⟨1⟩, Time.zero⟩, ⟨4, "b", false, ⟨2⟩, Time.zero⟩,
              ⟨5, "c", false, ⟨3⟩, Time.zero⟩] ∧
      (ids [⟨1, "a", false, ⟨1⟩, Time.zero⟩, ⟨4, "b", false, ⟨2⟩, Time.zero⟩,
            ⟨5, "c", false, ⟨3⟩, Time.zero⟩]).Nodup) ∧
    (((([(⟨["tasker", "add", "a"], ⟨1⟩⟩ : Invocation), ⟨["tasker", "rm", "1"], ⟨2⟩⟩,
        ⟨["tasker", "add", "b"], ⟨3⟩⟩].countP (isAdd goLib) : Nat) : Int) ≤ maxInt + 1) ∧
      (ids (runAll goLib [] [⟨["tasker", "add", "a"], ⟨1⟩⟩, ⟨["tasker", "rm", "1"], ⟨2⟩⟩,
        ⟨["tasker", "add", "b"], ⟨3⟩⟩])).Nodup) :=
  ⟨⟨by decide, by decide, by decide, by decide,
    (unique_ids_preserved goLib).1 ["tasker", "add", "c"]
      [⟨9223372036854775807, "a", false, ⟨1⟩, Time.zero⟩] _ ⟨3⟩ none
      (by decide) (by decide) (by decide) (by decide)⟩,
   ⟨by decide, by decide, by decide,
    (unique_ids_preserved goLib).2.1
      [⟨9223372036854775807, "a", false, ⟨1⟩, Time.zero⟩,
       ⟨-9223372036854775808, "b", false, ⟨2⟩, Time.zero⟩] _
      "tasker" "rm" ["9223372036854775807"] ⟨3⟩ none (by decide) (by decide) (by decide)⟩,
   ⟨by decide, by decide, by decide,
    (unique_ids_preserved goLib).2.2.1 ["tasker", "add", "c"]
      [⟨1, "a", false, ⟨1⟩, Time.zero⟩, ⟨4, "b", false, ⟨2⟩, Time.zero⟩] _ ⟨3⟩ none
      (by decide) (by decide) (by decide)⟩,
   ⟨by decide, (unique_ids_preserved goLib).2.2.2 _ (by decide)⟩⟩

end Tasker
